import Mathlib

/-!
Verification of the commit-graph lane layout engine and the checkout
synchronization protocol of the TSAR Advisor `gitgraph` panel
(`src/extension.ts`).

The layout engine (`getCommitGraph` / `dfs`, extension.ts lines 67-121) is
embedded as a fuel-indexed state-passing function.  Hashes are opaque
identifiers modelled as `Nat`; the JavaScript `Map`s (`hashIdx`, the
child mapping `commits`) are modelled as `Option`-valued functions, and a
lookup of a key that is absent (which in JavaScript throws a `TypeError`
on the subsequent property access, or silently misbehaves) is modelled as
the error `Err.missing`.  Running out of fuel (`Err.noFuel`) models
non-termination of the unbounded JavaScript recursion.

The state carries, besides the mutable `height` array (modelled as a
total function `Nat → Nat`, zero-initialised like `Array(n).fill(0)`) and
the shared `subTree` run buffer, a ghost `log` of flush events.  The log
records, for each flush: the row range scanned for the maximum
(`lo`..`hi`), the height written (`h`), and the rows actually written
(`rows`).  The log is write-only ghost state: no code path reads it, so
it does not alter the behaviour of the embedded algorithm.
-/

set_option maxHeartbeats 1000000

namespace TsarGitGraph

abbrev Hash := Nat

/-- Failure modes of the embedded layout engine: `missing` models a
JavaScript lookup of a hash absent from `commits` or `hashIdx` (a
`TypeError` / undefined access in the source), `noFuel` models
non-termination of the unbounded recursion. -/
inductive Err where
  | noFuel
  | missing
deriving DecidableEq, Repr

/-- Ghost record of one flush event of the run buffer (extension.ts lines
81-100): `lo`/`hi` are the row indices of the first and last run member
(the bounds of the `newHeight` scan), `h` is the height written
(`newHeight + 1`), `rows` are the rows actually written at this flush. -/
structure Flush where
  lo : Nat
  hi : Nat
  h : Nat
  rows : List Nat
deriving DecidableEq, Repr

/-- Mutable state of the traversal: the `height` array (indexed by row,
zero means unassigned), the shared `subTree` run buffer, and the ghost
flush log. -/
structure St where
  height : Nat → Nat
  subTree : List Hash
  log : List Flush

/-- Maximum of `f` over rows `lo`, `lo+1`, ..., `lo+len-1`; `0` for an
empty range.  This is the `newHeight` scan loop of extension.ts lines
84-88 (the loop body runs for `idx` from `hashIdx(subTree[0])` to
`hashIdx(subTree[last])` inclusive, so `len = hi + 1 - lo`; a reversed
range gives `len = 0` and value `0`, as in the source). -/
def rangeMax (f : Nat → Nat) (lo : Nat) : Nat → Nat
  | 0 => 0
  | n + 1 => max (rangeMax f lo n) (f (lo + n))

/-- Sequentially write value `v` at row `idx m` for each `m` in the list,
failing if some hash has no row (extension.ts lines 90-92, the middle
write loop of a flush). -/
def writeAll (idx : Hash → Option Nat) (v : Nat) : List Hash → (Nat → Nat) → Except Err (Nat → Nat)
  | [], f => .ok f
  | m :: ms, f =>
    match idx m with
    | none => .error .missing
    | some i => writeAll idx v ms (fun j => if j = i then v else f j)

/-- First element of the run `subTree ++ [c]` (the source reads
`subTree[0]` after pushing `c`, so the buffer is never empty here). -/
def runHead (subT : List Hash) (c : Hash) : Hash :=
  match subT with
  | [] => c
  | x :: _ => x

/-- Flush of the run buffer (extension.ts lines 81-100): push `c`, scan
rows `hashIdx(run.first) .. hashIdx(run.last)` for the maximum height,
write `newHeight + 1` to every run member except the first and the last,
additionally write the last member when it is childless and still
unassigned, record the ghost flush entry, and clear the buffer.  `cs` is
the (already looked up) child list of `c` and `ic` its row. -/
def flushRun (idx : Hash → Option Nat) (cs : List Hash) (c : Hash) (ic : Nat) (st : St) :
    Except Err St :=
  match idx (runHead st.subTree c) with
  | none => .error .missing
  | some i0 =>
    let run := st.subTree ++ [c]
    let newH := rangeMax st.height i0 (ic + 1 - i0)
    let mids := run.tail.dropLast
    match writeAll idx (newH + 1) mids st.height with
    | .error e => .error e
    | .ok f1 =>
      if cs = [] ∧ f1 ic = 0 then
        .ok { height := fun j => if j = ic then newH + 1 else f1 j,
              subTree := [],
              log := st.log ++ [{ lo := i0, hi := ic, h := newH + 1,
                                  rows := mids.filterMap idx ++ [ic] }] }
      else
        .ok { height := f1,
              subTree := [],
              log := st.log ++ [{ lo := i0, hi := ic, h := newH + 1,
                                  rows := mids.filterMap idx }] }

/-- Loop over the children of `c` (extension.ts lines 103-106): before
each recursive call, `c` is pushed onto the shared run buffer. -/
def runChildren (f : Hash → St → Except Err St) (c : Hash) : List Hash → St → Except Err St
  | [], st => .ok st
  | n :: ns, st =>
    match f n { st with subTree := st.subTree ++ [c] } with
    | .error e => .error e
    | .ok st' => runChildren f c ns st'

/-- The run-flush depth-first traversal (extension.ts lines 80-107),
indexed by fuel.  A commit with no children, or one whose height is
already assigned, flushes the current run; otherwise the commit is pushed
before recursing into each child in turn. -/
def dfs (children : Hash → Option (List Hash)) (idx : Hash → Option Nat) :
    Nat → Hash → St → Except Err St
  | 0, _, _ => .error .noFuel
  | fuel + 1, c, st =>
    match children c with
    | none => .error .missing
    | some cs =>
      match idx c with
      | none => .error .missing
      | some ic =>
        if cs = [] ∨ st.height ic ≠ 0 then
          flushRun idx cs c ic st
        else
          runChildren (dfs children idx fuel) c cs st

/-- Row index of a hash: the JavaScript `hashIdx` map is built by
`orderedCommits.forEach((value, index) => hashIdx.set(value.hash, index))`,
so for a duplicated hash the last occurrence wins; for distinct hashes
this is the unique position in the chronological order. -/
def hashIdx (order : List Hash) (h : Hash) : Option Nat :=
  match (order.reverse).findIdx? (fun x => x = h) with
  | none => none
  | some k => some (order.length - 1 - k)

/-- One row of the returned layout (extension.ts lines 112-119). -/
structure AnsEntry where
  hash : Hash
  children : List Hash
  height : Nat
deriving DecidableEq, Repr, Inhabited

/-- Initial traversal state: all heights zero, empty run buffer. -/
def initSt : St := { height := fun _ => 0, subTree := [], log := [] }

/-- The layout engine `getCommitGraph` (extension.ts lines 67-121), also
returning the final traversal state (with its ghost flush log).  The
chronologically ordered commit list and the child mapping are the inputs
(their construction from `git` output is trivial I/O glue).  The fuel
`order.length + 1` suffices for every acyclic input (see the termination
theorem); an empty commit list is an error (`orderedCommits[0].hash`
throws in the source).  After the traversal, row 0 is forced to height 1
(line 110), and the answer is assembled per commit in chronological
order. -/
def getCommitGraphSt (children : Hash → Option (List Hash)) (order : List Hash) :
    Except Err (List AnsEntry × St) :=
  match order with
  | [] => .error .missing
  | o0 :: _ =>
    match dfs children (hashIdx order) (order.length + 1) o0 initSt with
    | .error e => .error e
    | .ok st =>
      let hFinal : Nat → Nat := fun j => if j = 0 then 1 else st.height j
      .ok (order.map (fun c =>
            { hash := c, children := (children c).getD [],
              height := hFinal ((hashIdx order c).getD 0) }),
          { st with height := hFinal })

/-- The answer list alone, as returned to the renderer. -/
def getCommitGraph (children : Hash → Option (List Hash)) (order : List Hash) :
    Except Err (List AnsEntry) :=
  (getCommitGraphSt children order).map Prod.fst

/-- Child mapping from a finite association list (the parsed
`git rev-list --all --children` output): absent keys give `none`. -/
def chOf (l : List (Hash × List Hash)) : Hash → Option (List Hash) :=
  fun h => l.lookup h

/-! ## Concrete histories used to evaluate the engine

Hashes are numbered by their chronological row, so `order = [0, 1, ...]`
and `hashIdx` is the identity on the commits of the history. -/

/-- Two sibling branches with interleaved row ranges: root `0` has
children `3` and `1` (in that child order), `3 -> 4`, `1 -> 2`. -/
def chC1 : Hash → Option (List Hash) :=
  chOf [(0, [3, 1]), (1, [2]), (2, []), (3, [4]), (4, [])]

def orderC1 : List Hash := [0, 1, 2, 3, 4]

def stC1 : St := ((getCommitGraphSt chC1 orderC1).toOption.getD ([], initSt)).2

/-- Synthetic fork-then-merge history with three branches: `0` forks into
`1`, `2`, `3`, which all merge into `4`. -/
def chW1 : Hash → Option (List Hash) :=
  chOf [(0, [1, 2, 3]), (1, [4]), (2, [4]), (3, [4]), (4, [])]

def orderW1 : List Hash := [0, 1, 2, 3, 4]

def pairW1 : List AnsEntry × St :=
  (getCommitGraphSt chW1 orderW1).toOption.getD ([], initSt)

/-- Linear two-commit history `0 -> 1`. -/
def chW2 : Hash → Option (List Hash) := chOf [(0, [1]), (1, [])]

def ansW2 : List AnsEntry := (getCommitGraph chW2 [0, 1]).toOption.getD []

/-- Two isolated root commits (e.g. two orphan branches): both are
childless and parentless; the traversal starts at commit `0` and never
reaches commit `1`. -/
def clC3 : List (Hash × List Hash) := [(0, []), (1, [])]

def ansC3 : List AnsEntry := (getCommitGraph (chOf clC3) [0, 1]).toOption.getD []

def pairC3 : List AnsEntry × St :=
  (getCommitGraphSt (chOf clC3) [0, 1]).toOption.getD ([], initSt)

/-- Chain `0 -> 1 -> 2` whose last commit is absent from the child
mapping: the traversal reaches commit `2` two child steps from the start
and crashes there. -/
def clC9 : List (Hash × List Hash) := [(0, [1]), (1, [2])]

/-- Diamond merge `0 -> 1 -> 3`, `0 -> 2 -> 3`. -/
def chD : Hash → Option (List Hash) :=
  chOf [(0, [1, 2]), (1, [3]), (2, [3]), (3, [])]

def idxD : Hash → Option Nat := hashIdx [0, 1, 2, 3]

/-- Mid-traversal state of the diamond: the merge commit `3` has already
been flushed with height `1`; the traversal is about to enter the second
branch at commit `2`. -/
def stD0 : St := { height := fun j => if j = 3 then 1 else 0, subTree := [], log := [] }

def stD1 : St := (dfs chD idxD 5 2 stD0).toOption.getD initSt

/-! ## The rendering surface and the checkout synchronization protocol

The webview script produced by `getGraphWebviewContent` (extension.ts
lines 194-551) is modelled elementwise: each commit contributes a circle,
a message text, a HEAD border rectangle and a HEAD tag text, carrying the
class tokens the script assigns.  Attributes no claim and no patch path
touches (stroke, radius, `dy`, the date column) are omitted.  Class
strings are modelled as a token type; a commit hash used as a class name
becomes `Tag.hashTag h` (commit hashes are 40-character hexadecimal
strings, so they never collide with the fixed class names). -/

/-- Layout constants of extension.ts lines 198-201. -/
def baseX : Int := 210

def baseY : Int := 50

def xOffset : Int := 100

def yOffset : Int := 100

/-- Class tokens attached to rendered SVG elements. -/
inductive Tag where
  | headElem
  | usualElem
  | hashTag (h : Hash)
  | circle
  | commitHash
  | headBorder
  | headText
deriving DecidableEq, Repr

/-- One SVG element of the scene: its class list and the attributes the
checkout patch can touch (`fill`, the `x` attribute `xa`, the `y`
attribute `ya`, width `w`, height `hgt`, text content `txt`). -/
structure Elem where
  classes : List Tag
  fill : String
  xa : Int
  ya : Int
  w : Int
  hgt : Int
  txt : String
deriving DecidableEq, Repr

/-- The colour palette of extension.ts line 309 (the last entry is
verbatim from the source). -/
def branchColors : List String :=
  ["navy", "firebrick", "darkgreen", "darkviolet", "darkgoldenrod",
   "teal", "#abdda4", "#66c2a5", "#c637e8", "#5e4fa2qqq"]

/-- JavaScript array indexing: out-of-range indices give `undefined`. -/
def jsIndex (l : List String) (i : Int) : String :=
  if 0 ≤ i ∧ i.toNat < l.length then l.getD i.toNat "undefined" else "undefined"

/-- Palette colour of a node at horizontal position `px`:
`branchColors[(px - x) / xOffset % 10]`, with the JavaScript remainder
(truncation towards zero, `Int.tmod`). -/
def colorAt (px : Int) : String := jsIndex branchColors (((px - baseX) / xOffset).tmod 10)

/-- The positions dictionary built by the webview script over the
reversed answer array (extension.ts lines 297-298 and 321-326):
`positions[hash] = { x: x + (height - 1) * xOffset, y: y + index * yOffset }`,
where `index` runs over the reversed (newest-first) array; a later
assignment overwrites an earlier one, as in a JavaScript object.  The
height is converted to a signed integer because an unassigned height 0
yields the x position `x - xOffset` in the script. -/
def buildPos : List AnsEntry → Nat → (Hash → Option (Int × Int))
  | [], _ => fun _ => none
  | e :: restL, i => fun hs =>
    match buildPos restL (i + 1) hs with
    | some v => some v
    | none =>
      if hs = e.hash then
        some (baseX + ((e.height : Int) - 1) * xOffset, baseY + (i : Int) * yOffset)
      else none

def positionsFun (ans : List AnsEntry) : Hash → Option (Int × Int) :=
  buildPos ans.reverse 0

/-- Elements rendered for one commit (the d3 joins of extension.ts lines
358-468): the circle (lines 358-387), the commit message text (lines
394-420), the HEAD border rectangle (lines 427-449) and the HEAD tag text
(lines 451-468).  `head` is the current HEAD hash, `maxH` the maximal
height (`max_height`, the graph width), `p` the node position and `msg`
the commit message. -/
def renderCommit (head : Hash) (maxH : Nat) (hs : Hash) (p : Int × Int) (msg : String) :
    List Elem :=
  [{ classes := [if hs = head then Tag.headElem else Tag.usualElem, Tag.hashTag hs, Tag.circle],
     fill := if hs = head then "white" else colorAt p.1,
     xa := p.1, ya := p.2, w := 0, hgt := 0, txt := "" },
   { classes := [if hs = head then Tag.headElem else Tag.usualElem, Tag.hashTag hs,
                 Tag.commitHash],
     fill := "",
     xa := if hs = head then (maxH : Int) * xOffset + baseX + 70
           else (maxH : Int) * xOffset + baseX - 10,
     ya := p.2, w := 0, hgt := 0, txt := msg },
   { classes := [Tag.hashTag hs, if hs = head then Tag.headElem else Tag.usualElem,
                 Tag.headBorder],
     fill := "none",
     xa := (maxH : Int) * xOffset + baseX - 10, ya := p.2 - 15,
     w := if hs = head then 72 else 0, hgt := if hs = head then 30 else 0, txt := "" },
   { classes := [Tag.hashTag hs, if hs = head then Tag.headElem else Tag.usualElem,
                 Tag.headText],
     fill := "",
     xa := (maxH : Int) * xOffset + baseX, ya := p.2, w := 0, hgt := 0,
     txt := if hs = head then "HEAD" else "" }]

/-- The full scene: one element group per commit, each commit given by
its hash, position and message. -/
def renderScene (head : Hash) (maxH : Nat)
    (items : List (Hash × (Int × Int) × String)) : List Elem :=
  items.flatMap (fun it => renderCommit head maxH it.1 it.2.1 it.2.2)

/-- classList.add: appends the token if absent. -/
def classAdd (t : Tag) (cs : List Tag) : List Tag := if t ∈ cs then cs else cs ++ [t]

/-- classList.remove: removes the token. -/
def classRemove (t : Tag) (cs : List Tag) : List Tag := cs.erase t

/-- Phase 1 of the incremental checkout patch (extension.ts lines
500-520): every element currently carrying the HEAD decoration class is
reverted to the default look, branching on its marker class exactly as
the source does; `oldX` is `positions[HEAD].x` of the outgoing HEAD. -/
def patchOld (oldX : Int) (maxH : Nat) (e : Elem) : Elem :=
  if Tag.headElem ∈ e.classes then
    let e1 :=
      if Tag.circle ∈ e.classes then { e with fill := colorAt oldX }
      else if Tag.commitHash ∈ e.classes then
        { e with xa := (maxH : Int) * xOffset + baseX - 10 }
      else if Tag.headBorder ∈ e.classes then { e with w := 0, hgt := 0 }
      else if Tag.headText ∈ e.classes then { e with txt := "" }
      else e
    { e1 with classes := classAdd Tag.usualElem (classRemove Tag.headElem e1.classes) }
  else e

/-- Phase 2 of the incremental checkout patch (extension.ts lines
524-544): every element tagged with the new HEAD hash receives the HEAD
decoration. -/
def patchNew (newHash : Hash) (maxH : Nat) (e : Elem) : Elem :=
  if Tag.hashTag newHash ∈ e.classes then
    let e1 :=
      if Tag.circle ∈ e.classes then { e with fill := "white" }
      else if Tag.commitHash ∈ e.classes then
        { e with xa := (maxH : Int) * xOffset + baseX + 70 }
      else if Tag.headBorder ∈ e.classes then { e with w := 72, hgt := 30 }
      else if Tag.headText ∈ e.classes then { e with txt := "HEAD" }
      else e
    { e1 with classes := classRemove Tag.usualElem (classAdd Tag.headElem e1.classes) }
  else e

/-- State of the rendering surface: the scene, the in-memory HEAD pointer
(the script's `let HEAD` variable), the positions dictionary and graph
width computed once at render time, and the checkout requests posted to
the host so far (`vscode.postMessage` of lines 382 and 415). -/
structure WVState where
  scene : List Elem
  headPtr : Hash
  pos : Hash → Option (Int × Int)
  maxH : Nat
  outbound : List Hash

/-- The `gitCheckout` message handler of the webview (extension.ts lines
497-547): patch phase 1 on the elements carrying the old decoration,
update the HEAD pointer, patch phase 2 on the elements tagged with the
new hash.  The layout (`pos`, `maxH`) is not touched. -/
def applyCheckoutMsg (wv : WVState) (h : Hash) : WVState :=
  let oldX : Int := ((wv.pos wv.headPtr).getD (0, 0)).1
  let s1 := wv.scene.map (patchOld oldX wv.maxH)
  { wv with scene := s1.map (patchNew h wv.maxH), headPtr := h }

/-- Events the rendering surface processes: a double-click on the node or
message text of a commit (extension.ts lines 380-383 and 413-415), or the
`gitCheckout` confirmation message from the host (lines 494-548). -/
inductive WVEvent where
  | dblclick (h : Hash)
  | hostCheckout (h : Hash)
deriving DecidableEq, Repr

/-- One step of the webview event loop: a double-click unconditionally
posts a checkout request; a host confirmation applies the incremental
patch. -/
def wvStep (wv : WVState) (e : WVEvent) : WVState :=
  match e with
  | .dblclick h => { wv with outbound := wv.outbound ++ [h] }
  | .hostCheckout h => applyCheckoutMsg wv h

def wvRun (wv : WVState) : List WVEvent → WVState
  | [] => wv
  | e :: es => wvRun (wvStep wv e) es

/-- Host side of the protocol (extension.ts lines 609-624): on a
`gitCheckout` request from the webview, attempt the checkout; on success
move the repository HEAD and post the confirmation message back to the
webview; on failure show an error message and change nothing else. -/
structure HostState where
  repoHead : Hash
  errors : List String
deriving Repr

def hostHandle (checkoutOk : Hash → Bool) (hs : HostState) (wv : WVState) (h : Hash) :
    HostState × WVState :=
  if checkoutOk h then
    ({ hs with repoHead := h }, applyCheckoutMsg wv h)
  else
    ({ hs with errors := hs.errors ++ ["checkout failed"] }, wv)

/-- Circle elements currently carrying the HEAD decoration. -/
def isHeadCircle (e : Elem) : Bool :=
  (e.classes.contains Tag.circle) && (e.classes.contains Tag.headElem)

/-- The double-clicked hash of an event, if any. -/
def dblOf : WVEvent → Option Hash
  | .dblclick h => some h
  | .hostCheckout _ => none

/-- A concrete two-commit rendering of the linear history `0 -> 1` with
HEAD at commit `0`. -/
def itemsW : List (Hash × (Int × Int) × String) :=
  [(1, (210, 50), "second"), (0, (210, 150), "first")]

def wvW : WVState :=
  { scene := renderScene 0 1 itemsW, headPtr := 0,
    pos := positionsFun ansW2, maxH := 1, outbound := [] }

def okW : Hash → Bool := fun h => h == 1

def hostW : HostState := { repoHead := 0, errors := [] }

def rW : HostState × WVState := hostHandle okW hostW wvW 1


/-! ## Invariants of the traversal state -/

/-- Run-buffer invariant: every element of the shared `subTree` buffer
except the first still has an unassigned (zero) height.  This is the key
structural fact behind the no-overwrite policy: a flush writes exactly to
the buffer tail. -/
def TailZero (idx : Hash → Option Nat) (st : St) : Prop :=
  ∀ x ∈ st.subTree.tail, ∀ i, idx x = some i → st.height i = 0

/-- Log consistency: every flushed height is positive and still stands,
in the current height array, at every row that flush wrote. -/
def LogOK (st : St) : Prop :=
  ∀ e ∈ st.log, 0 < e.h ∧ ∀ p ∈ e.rows, st.height p = e.h

/-- Relation between a flush and a later flush: every row written by the
earlier one that falls inside the scan range of the later one forces the
later height to be strictly larger. -/
def FlushSep (e1 e2 : Flush) : Prop :=
  ∀ p ∈ e1.rows, e2.lo ≤ p → p ≤ e2.hi → e1.h < e2.h

/-- All pairs of flushes in temporal order satisfy `FlushSep`. -/
def LogSep (L : List Flush) : Prop := L.Pairwise FlushSep

/-- Reachability along the child mapping (the commits the traversal can
visit starting from a given commit). -/
inductive Reach (children : Hash → Option (List Hash)) : Hash → Hash → Prop
  | refl (c : Hash) : Reach children c c
  | step {a b c : Hash} {cs : List Hash} :
      Reach children a b → children b = some cs → c ∈ cs → Reach children a c

/-- Every commit reachable from `x` along the child mapping is present in
the mapping (its child lookup succeeds). -/
def ReachPresent (children : Hash → Option (List Hash)) (x : Hash) : Prop :=
  ∀ z, Reach children x z → children z ≠ none

/-- Postcondition of one completed traversal call from commit `c`: the
run buffer ends empty, already assigned heights are preserved, the ghost
log grows monotonically and stays consistent and separated, and only rows
of buffered ancestors or commits reachable from `c` are written. -/
def DfsPost (children : Hash → Option (List Hash)) (idx : Hash → Option Nat)
    (c : Hash) (st st' : St) : Prop :=
  st'.subTree = [] ∧
  (∀ i, st.height i ≠ 0 → st'.height i = st.height i) ∧
  st.log <+: st'.log ∧
  LogOK st' ∧ LogSep st'.log ∧
  (∀ i, st'.height i ≠ st.height i →
    ∃ x, idx x = some i ∧ (x ∈ st.subTree ∨ Reach children c x))

theorem Reach.trans {children : Hash → Option (List Hash)} {a b c : Hash}
    (h1 : Reach children a b) (h2 : Reach children b c) : Reach children a c := by
  induction h2 with
  | refl => exact h1
  | step _ hcs hmem ih => exact Reach.step ih hcs hmem

/-! ## Basic lemmas about the flush components -/

theorem le_rangeMax (f : Nat → Nat) (lo : Nat) :
    ∀ len j, lo ≤ j → j < lo + len → f j ≤ rangeMax f lo len := by
  intro len
  induction len with
  | zero => intro j h1 h2; omega
  | succ n ih =>
    intro j h1 h2
    rcases Nat.lt_or_ge j (lo + n) with h | h
    · exact le_trans (ih j h1 h) (le_max_left _ _)
    · have hj : j = lo + n := by omega
      subst hj
      exact le_max_right _ _

theorem writeAll_not_noFuel (idx : Hash → Option Nat) (v : Nat) :
    ∀ ms f, writeAll idx v ms f ≠ .error .noFuel := by
  intro ms
  induction ms with
  | nil => intro f h; simp [writeAll] at h
  | cons m ms ih =>
    intro f h
    rw [writeAll] at h
    cases hm : idx m with
    | none => rw [hm] at h; simp at h
    | some i => rw [hm] at h; exact ih _ h

theorem writeAll_pres (idx : Hash → Option Nat) (v : Nat) :
    ∀ ms f f', writeAll idx v ms f = .ok f' →
    ∀ i, (∀ m ∈ ms, idx m ≠ some i) → f' i = f i := by
  intro ms
  induction ms with
  | nil =>
    intro f f' h i _
    rw [writeAll] at h
    cases h
    rfl
  | cons m ms ih =>
    intro f f' h i hni
    rw [writeAll] at h
    cases hm : idx m with
    | none => rw [hm] at h; cases h
    | some k =>
      rw [hm] at h
      have hk : k ≠ i := by
        intro hki
        exact hni m (List.mem_cons_self m ms) (by rw [hm, hki])
      have := ih _ _ h i (fun m' hm' => hni m' (List.mem_cons_of_mem m hm'))
      rw [this]
      simp [hk.symm]

theorem writeAll_writes (idx : Hash → Option Nat) (v : Nat) :
    ∀ ms f f', writeAll idx v ms f = .ok f' →
    ∀ i, f' i = f i ∨ f' i = v := by
  intro ms
  induction ms with
  | nil =>
    intro f f' h i
    rw [writeAll] at h
    cases h
    exact Or.inl rfl
  | cons m ms ih =>
    intro f f' h i
    rw [writeAll] at h
    cases hm : idx m with
    | none => rw [hm] at h; cases h
    | some k =>
      rw [hm] at h
      rcases ih _ _ h i with h1 | h1
      · rw [h1]
        by_cases hk : i = k
        · subst hk; simp
        · simp [hk]
      · exact Or.inr h1

theorem writeAll_val (idx : Hash → Option Nat) (v : Nat) :
    ∀ ms f f', writeAll idx v ms f = .ok f' →
    ∀ m ∈ ms, ∀ i, idx m = some i → f' i = v := by
  intro ms
  induction ms with
  | nil => intro f f' _ m hm; cases hm
  | cons m0 ms ih =>
    intro f f' h m hm i hmi
    rw [writeAll] at h
    cases hm0 : idx m0 with
    | none => rw [hm0] at h; cases h
    | some k =>
      rw [hm0] at h
      rcases List.mem_cons.mp hm with rfl | hm'
      · have hki : k = i := by rw [hm0] at hmi; cases hmi; rfl
        subst hki
        rcases writeAll_writes idx v ms _ _ h k with h1 | h1
        · rw [h1]; simp
        · exact h1
      · exact ih _ _ h m hm' i hmi

theorem writeAll_rows (idx : Hash → Option Nat) (v : Nat) :
    ∀ ms f f', writeAll idx v ms f = .ok f' →
    ∀ i, f' i ≠ f i → ∃ m, m ∈ ms ∧ idx m = some i := by
  intro ms
  induction ms with
  | nil =>
    intro f f' h i hne
    rw [writeAll] at h
    cases h
    exact absurd rfl hne
  | cons m0 ms ih =>
    intro f f' h i hne
    rw [writeAll] at h
    cases hm0 : idx m0 with
    | none => rw [hm0] at h; cases h
    | some k =>
      rw [hm0] at h
      by_cases hk : i = k
      · exact ⟨m0, List.mem_cons_self m0 ms, by rw [hm0, hk]⟩
      · rcases ih _ _ h i (by simpa [hk] using hne) with ⟨m, hm, hmi⟩
        exact ⟨m, List.mem_cons_of_mem m0 hm, hmi⟩

/-- The middle elements of a flushed run `subTree ++ [c]` (all members
except the first and the last) are exactly the tail of the pre-push
buffer. -/
theorem mids_eq_tail (subT : List Hash) (c : Hash) :
    ((subT ++ [c]).tail).dropLast = subT.tail := by
  cases subT with
  | nil => simp
  | cons y t => simp

theorem flushRun_spec (children : Hash → Option (List Hash)) (idx : Hash → Option Nat)
    (cs : List Hash) (c : Hash) (ic : Nat) (st st' : St)
    (hw : flushRun idx cs c ic st = .ok st')
    (hic : idx c = some ic)
    (hTZ : TailZero idx st) (hK : LogOK st) (hJ : LogSep st.log) :
    DfsPost children idx c st st' := by
  unfold flushRun at hw
  split at hw
  · cases hw
  case _ i0 h0 =>
  dsimp only at hw
  rw [mids_eq_tail] at hw
  split at hw
  · cases hw
  case _ f1 hwa =>
  have hno : ∀ i, st.height i ≠ 0 → ∀ m ∈ st.subTree.tail, idx m ≠ some i := by
    intro i hi m hm hmi
    exact hi (hTZ m hm i hmi)
  have hf1 : ∀ i, st.height i ≠ 0 → f1 i = st.height i := by
    intro i hi
    exact writeAll_pres idx _ _ _ _ hwa i (hno i hi)
  have hvals : ∀ m ∈ st.subTree.tail, ∀ i, idx m = some i →
      f1 i = rangeMax st.height i0 (ic + 1 - i0) + 1 :=
    writeAll_val idx _ _ _ _ hwa
  have hrows : ∀ i, f1 i ≠ st.height i → ∃ m, m ∈ st.subTree.tail ∧ idx m = some i :=
    writeAll_rows idx _ _ _ _ hwa
  have hcross : ∀ e ∈ st.log, FlushSep e
      { lo := i0, hi := ic, h := rangeMax st.height i0 (ic + 1 - i0) + 1,
        rows := (st.subTree.tail.filterMap idx) ++ [ic] } ∧
      FlushSep e
      { lo := i0, hi := ic, h := rangeMax st.height i0 (ic + 1 - i0) + 1,
        rows := st.subTree.tail.filterMap idx } := by
    intro e he
    have hsep : ∀ p ∈ e.rows, i0 ≤ p → p ≤ ic →
        e.h < rangeMax st.height i0 (ic + 1 - i0) + 1 := by
      intro p hp hlo hhi
      have hep : st.height p = e.h := ((hK e he).2 p hp)
      have : st.height p ≤ rangeMax st.height i0 (ic + 1 - i0) :=
        le_rangeMax st.height i0 _ p hlo (by omega)
      omega
    exact ⟨hsep, hsep⟩
  split at hw
  case _ hcond =>
    -- childless and still unassigned: the trigger row is written as well
    cases hw
    refine ⟨rfl, ?_, List.prefix_append _ _, ?_, ?_, ?_⟩
    · intro i hi
      have hne : i ≠ ic := by
        intro hi2
        subst hi2
        exact hi ((hf1 i hi) ▸ hcond.2)
      simp only [hne, if_false]
      exact hf1 i hi
    · intro e he
      rcases List.mem_append.mp he with he1 | he2
      · refine ⟨(hK e he1).1, ?_⟩
        intro p hp
        have hp0 : st.height p = e.h := (hK e he1).2 p hp
        have hpz : st.height p ≠ 0 := by
          have := (hK e he1).1
          omega
        have hne : p ≠ ic := by
          intro hp2
          subst hp2
          exact hpz ((hf1 p hpz) ▸ hcond.2 ▸ rfl)
        simp only [hne, if_false]
        rw [hf1 p hpz]
        exact hp0
      · have he2' : e =
            { lo := i0, hi := ic, h := rangeMax st.height i0 (ic + 1 - i0) + 1,
              rows := (st.subTree.tail.filterMap idx) ++ [ic] } := by
          simpa using he2
        subst he2'
        refine ⟨Nat.succ_pos _, ?_⟩
        intro p hp
        rcases List.mem_append.mp hp with hp1 | hp2
        · rcases List.mem_filterMap.mp hp1 with ⟨m, hm, hmi⟩
          by_cases hpic : p = ic
          · subst hpic; simp
          · simp only [hpic, if_false]
            exact hvals m hm p hmi
        · have : p = ic := by simpa using hp2
          subst this
          simp
    · unfold LogSep
      rw [List.pairwise_append]
      refine ⟨hJ, List.pairwise_singleton _ _, ?_⟩
      intro e he e' he'
      have : e' =
          { lo := i0, hi := ic, h := rangeMax st.height i0 (ic + 1 - i0) + 1,
            rows := (st.subTree.tail.filterMap idx) ++ [ic] } := by simpa using he'
      subst this
      exact (hcross e he).1
    · intro i hi
      by_cases hpic : i = ic
      · subst hpic
        exact ⟨c, hic, Or.inr (Reach.refl c)⟩
      · simp only [hpic, if_false] at hi
        rcases hrows i hi with ⟨m, hm, hmi⟩
        exact ⟨m, hmi, Or.inl (List.mem_of_mem_tail hm)⟩
  case _ hcond =>
    cases hw
    refine ⟨rfl, ?_, List.prefix_append _ _, ?_, ?_, ?_⟩
    · intro i hi
      exact hf1 i hi
    · intro e he
      rcases List.mem_append.mp he with he1 | he2
      · refine ⟨(hK e he1).1, ?_⟩
        intro p hp
        have hp0 : st.height p = e.h := (hK e he1).2 p hp
        have hpz : st.height p ≠ 0 := by
          have := (hK e he1).1
          omega
        show f1 p = e.h
        rw [hf1 p hpz]
        exact hp0
      · have he2' : e =
            { lo := i0, hi := ic, h := rangeMax st.height i0 (ic + 1 - i0) + 1,
              rows := st.subTree.tail.filterMap idx } := by
          simpa using he2
        subst he2'
        refine ⟨Nat.succ_pos _, ?_⟩
        intro p hp
        rcases List.mem_filterMap.mp hp with ⟨m, hm, hmi⟩
        exact hvals m hm p hmi
    · unfold LogSep
      rw [List.pairwise_append]
      refine ⟨hJ, List.pairwise_singleton _ _, ?_⟩
      intro e he e' he'
      have : e' =
          { lo := i0, hi := ic, h := rangeMax st.height i0 (ic + 1 - i0) + 1,
            rows := st.subTree.tail.filterMap idx } := by simpa using he'
      subst this
      exact (hcross e he).2
    · intro i hi
      rcases hrows i hi with ⟨m, hm, hmi⟩
      exact ⟨m, hmi, Or.inl (List.mem_of_mem_tail hm)⟩

theorem DfsPost_trans (children : Hash → Option (List Hash)) (idx : Hash → Option Nat)
    (c : Hash) (st1 st2 st3 : St)
    (P : DfsPost children idx c st1 st2) (Q : DfsPost children idx c st2 st3) :
    DfsPost children idx c st1 st3 := by
  obtain ⟨s1, h1, l1, k1, j1, w1⟩ := P
  obtain ⟨s2, h2, l2, k2, j2, w2⟩ := Q
  refine ⟨s2, ?_, l1.trans l2, k2, j2, ?_⟩
  · intro i hi
    have hmid : st2.height i = st1.height i := h1 i hi
    have : st2.height i ≠ 0 := by rw [hmid]; exact hi
    rw [h2 i this, hmid]
  · intro i hi
    by_cases hmid : st2.height i = st1.height i
    · have : st3.height i ≠ st2.height i := by rw [hmid]; exact hi
      rcases w2 i this with ⟨x, hx, hmem | hre⟩
      · rw [s1] at hmem
        cases hmem
      · exact ⟨x, hx, Or.inr hre⟩
    · exact w1 i hmid

theorem DfsPost_push (children : Hash → Option (List Hash)) (idx : Hash → Option Nat)
    (c n : Hash) (st st2 : St)
    (hr : Reach children c n)
    (P : DfsPost children idx n { st with subTree := st.subTree ++ [c] } st2) :
    DfsPost children idx c st st2 := by
  obtain ⟨s1, h1, l1, k1, j1, w1⟩ := P
  refine ⟨s1, h1, l1, k1, j1, ?_⟩
  intro i hi
  rcases w1 i hi with ⟨x, hx, hmem | hre⟩
  · rcases List.mem_append.mp hmem with h | h
    · exact ⟨x, hx, Or.inl h⟩
    · have hxc : x = c := by simpa using h
      subst hxc
      exact ⟨x, hx, Or.inr (Reach.refl x)⟩
  · exact ⟨x, hx, Or.inr (Reach.trans hr hre)⟩

theorem runChildren_main (children : Hash → Option (List Hash)) (idx : Hash → Option Nat)
    (fuel : Nat) (c : Hash) (cs0 : List Hash)
    (hc : children c = some cs0)
    (ih : ∀ n st st', dfs children idx fuel n st = .ok st' →
          TailZero idx st → LogOK st → LogSep st.log → DfsPost children idx n st st') :
    ∀ cs' st st', cs' ⊆ cs0 →
      runChildren (dfs children idx fuel) c cs' st = .ok st' →
      (∀ x ∈ (st.subTree ++ [c]).tail, ∀ i, idx x = some i → st.height i = 0) →
      LogOK st → LogSep st.log →
      (cs' = [] ∧ st' = st) ∨ DfsPost children idx c st st' := by
  intro cs'
  induction cs' with
  | nil =>
    intro st st' _ h _ _ _
    rw [runChildren] at h
    cases h
    exact Or.inl ⟨rfl, rfl⟩
  | cons n ns ihl =>
    intro st st' hsub h hTZ1 hK hJ
    rw [runChildren] at h
    cases hstep : dfs children idx fuel n { st with subTree := st.subTree ++ [c] } with
    | error e => rw [hstep] at h; cases h
    | ok st2 =>
      rw [hstep] at h
      have hTZmid : TailZero idx { st with subTree := st.subTree ++ [c] } := hTZ1
      have P1 : DfsPost children idx n { st with subTree := st.subTree ++ [c] } st2 :=
        ih n _ st2 hstep hTZmid hK hJ
      have hrn : Reach children c n :=
        Reach.step (Reach.refl c) hc (hsub (List.mem_cons_self n ns))
      have P1' : DfsPost children idx c st st2 := DfsPost_push children idx c n st st2 hrn P1
      have hTZ2 : ∀ x ∈ (st2.subTree ++ [c]).tail, ∀ i, idx x = some i → st2.height i = 0 := by
        rw [P1'.1]
        intro x hx
        simp at hx
      rcases ihl st2 st' (fun x hx => hsub (List.mem_cons_of_mem n hx)) h hTZ2
          P1'.2.2.2.1 P1'.2.2.2.2.1 with hcase | Q
      · rw [hcase.2]
        exact Or.inr P1'
      · exact Or.inr (DfsPost_trans children idx c st st2 st' P1' Q)

/-- Master invariant of the traversal: a successful `dfs` call from a
state satisfying the run-buffer and log invariants ends with an empty run
buffer, preserves every already assigned height, only appends consistent
and separated flush entries to the log, and writes only rows of buffered
or reachable commits. -/
theorem dfs_main (children : Hash → Option (List Hash)) (idx : Hash → Option Nat) :
    ∀ fuel c st st', dfs children idx fuel c st = .ok st' →
    TailZero idx st → LogOK st → LogSep st.log →
    DfsPost children idx c st st' := by
  intro fuel
  induction fuel with
  | zero =>
    intro c st st' h
    rw [dfs] at h
    cases h
  | succ fuel ih =>
    intro c st st' h hTZ hK hJ
    rw [dfs] at h
    split at h
    · cases h
    case _ cs hc =>
      split at h
      · cases h
      case _ ic hi =>
        split at h
        case _ hcond =>
          exact flushRun_spec children idx cs c ic st st' h hi hTZ hK hJ
        case _ hcond =>
          have hcsne : cs ≠ [] := fun hnil => hcond (Or.inl hnil)
          have hic0 : st.height ic = 0 := by
            by_contra hne
            exact hcond (Or.inr hne)
          have htz : ∀ x ∈ (st.subTree ++ [c]).tail, ∀ i, idx x = some i → st.height i = 0 := by
            intro x hx i hxi
            cases hstv : st.subTree with
            | nil =>
              rw [hstv] at hx
              simp at hx
            | cons y t =>
              rw [hstv] at hx
              simp only [List.cons_append, List.tail_cons] at hx
              rcases List.mem_append.mp hx with hxt | hxc
              · have hmem : x ∈ st.subTree.tail := by
                  rw [hstv]
                  simpa using hxt
                exact hTZ x hmem i hxi
              · have hxeq : x = c := by simpa using hxc
                subst hxeq
                rw [hi] at hxi
                cases hxi
                exact hic0
          rcases runChildren_main children idx fuel c cs hc ih cs st st'
              (fun x hx => hx) h htz hK hJ with hcase | P
          · exact absurd hcase.1 hcsne
          · exact P

/-! ## Termination of the traversal -/

theorem flushRun_not_noFuel (idx : Hash → Option Nat) (cs : List Hash) (c : Hash)
    (ic : Nat) (st : St) : flushRun idx cs c ic st ≠ .error .noFuel := by
  unfold flushRun
  split
  · exact fun hcon => Err.noConfusion (Except.error.inj hcon)
  case _ i0 h0 =>
    dsimp only
    split
    case _ e hwa =>
      intro hcon
      have he : e = Err.noFuel := Except.error.inj hcon
      subst he
      exact writeAll_not_noFuel idx _ _ _ hwa
    case _ f1 hwa =>
      split
      · exact fun hcon => Except.noConfusion hcon
      · exact fun hcon => Except.noConfusion hcon

theorem runChildren_not_noFuel (f : Hash → St → Except Err St) (c : Hash) :
    ∀ ns : List Hash, (∀ n ∈ ns, ∀ s, f n s ≠ .error .noFuel) →
    ∀ st, runChildren f c ns st ≠ .error .noFuel := by
  intro ns
  induction ns with
  | nil =>
    intro _ st hcon
    rw [runChildren] at hcon
    exact Except.noConfusion hcon
  | cons n ns ih =>
    intro hf st hcon
    rw [runChildren] at hcon
    split at hcon
    case _ e heq =>
      have he : e = Err.noFuel := Except.error.inj hcon
      subst he
      exact hf n (List.mem_cons_self n ns) _ heq
    case _ st2 heq =>
      exact ih (fun m hm => hf m (List.mem_cons_of_mem n hm)) st2 hcon

/-- On a child relation admitting a strictly decreasing measure along
child edges (the standard witness of acyclicity), the traversal never
runs out of fuel once the fuel exceeds the measure of the start commit:
the recursion of extension.ts lines 80-107 terminates. -/
theorem dfs_not_noFuel (children : Hash → Option (List Hash)) (idx : Hash → Option Nat)
    (meas : Hash → Nat)
    (hmeas : ∀ p cs, children p = some cs → ∀ n ∈ cs, meas n < meas p) :
    ∀ fuel c st, meas c < fuel → dfs children idx fuel c st ≠ .error .noFuel := by
  intro fuel
  induction fuel with
  | zero => intro c st hlt; omega
  | succ fuel ih =>
    intro c st hlt hcon
    rw [dfs] at hcon
    split at hcon
    · exact Err.noConfusion (Except.error.inj hcon)
    case _ cs hc =>
      split at hcon
      · exact Err.noConfusion (Except.error.inj hcon)
      case _ ic hi =>
        split at hcon
        case _ hcond => exact flushRun_not_noFuel idx cs c ic st hcon
        case _ hcond =>
          refine runChildren_not_noFuel (dfs children idx fuel) c cs ?_ st hcon
          intro n hn s
          have h1 : meas n < meas c := hmeas c cs hc n hn
          exact ih n s (by omega)

theorem chOf_mem {cl : List (Hash × List Hash)} {p : Hash} {cs : List Hash}
    (h : chOf cl p = some cs) : (p, cs) ∈ cl := by
  unfold chOf at h
  rcases List.lookup_eq_some_iff.mp h with ⟨l1, l2, hcl, _⟩
  rw [hcl]
  exact List.mem_append.mpr (Or.inr (List.mem_cons_self _ _))

/-! ## Lemmas about the row-index map -/

theorem hashIdx_get {order : List Hash} {x : Hash} {i : Nat}
    (h : hashIdx order x = some i) :
    ∃ hlt : i < order.length, order[i] = x := by
  unfold hashIdx at h
  split at h
  · cases h
  case _ k hk =>
    cases h
    rcases List.findIdx?_eq_some_iff_getElem.mp hk with ⟨hklt, hp, _⟩
    have hkl : k < order.length := by simpa using hklt
    have hval : order.reverse[k] = x := by simpa using hp
    refine ⟨by omega, ?_⟩
    rw [← hval, List.getElem_reverse]

theorem hashIdx_inj {order : List Hash} {x y : Hash} {i : Nat}
    (hx : hashIdx order x = some i) (hy : hashIdx order y = some i) : x = y := by
  rcases hashIdx_get hx with ⟨h1, e1⟩
  rcases hashIdx_get hy with ⟨h2, e2⟩
  rw [← e1, ← e2]

theorem hashIdx_head (o0 : Hash) (rest : List Hash) (hnin : o0 ∉ rest) :
    hashIdx (o0 :: rest) o0 = some 0 := by
  unfold hashIdx
  have h1 : (rest.reverse).findIdx? (fun x => x = o0) = none := by
    rw [List.findIdx?_eq_none_iff]
    intro x hx
    have hxr : x ∈ rest := List.mem_reverse.mp hx
    simp only [decide_eq_false_iff_not]
    intro hxo
    subst hxo
    exact hnin hxr
  rw [List.reverse_cons, List.findIdx?_append, h1]
  simp

theorem reach_no_parent {children : Hash → Option (List Hash)} {a Z : Hash}
    (hnp : ∀ y cs, children y = some cs → Z ∉ cs) (h : Reach children a Z) : Z = a := by
  cases h with
  | refl => rfl
  | step hr hcs hmem => exact absurd hmem (hnp _ _ hcs)

/-- First-step decomposition of reachability: a commit reachable from `c`
is `c` itself or is reachable from one of the children of `c`. -/
theorem reach_cons {children : Hash → Option (List Hash)} {c z : Hash}
    (h : Reach children c z) :
    z = c ∨ ∃ cs n, children c = some cs ∧ n ∈ cs ∧ Reach children n z := by
  induction h with
  | refl => exact Or.inl rfl
  | step hr hcs hmem ih =>
    rcases ih with rfl | ⟨cs1, n, hc1, hn, hrn⟩
    · exact Or.inr ⟨_, _, hcs, hmem, Reach.refl _⟩
    · exact Or.inr ⟨cs1, n, hc1, hn, Reach.step hrn hcs hmem⟩

/-- A present childless commit trivially has its whole reachable set
present. -/
theorem reachPresent_nil {children : Hash → Option (List Hash)} {c : Hash}
    (hc : children c = some []) : ReachPresent children c := by
  intro z hz
  rcases reach_cons hz with rfl | ⟨cs1, n, hc1, hn, _⟩
  · rw [hc]; simp
  · rw [hc] at hc1
    cases hc1
    cases hn

/-- `ReachPresent` is established at a present commit once it holds at
each of its children. -/
theorem reachPresent_step {children : Hash → Option (List Hash)} {c : Hash} {cs : List Hash}
    (hc : children c = some cs) (hall : ∀ n ∈ cs, ReachPresent children n) :
    ReachPresent children c := by
  intro z hz
  rcases reach_cons hz with rfl | ⟨cs1, n, hc1, hn, hrn⟩
  · rw [hc]; simp
  · rw [hc] at hc1
    cases hc1
    exact hall n hn z hrn

/-- Destructuring of a successful run of the layout engine. -/
theorem getCommitGraphSt_ok {children : Hash → Option (List Hash)} {order : List Hash}
    {ans : List AnsEntry} {stF : St}
    (hok : getCommitGraphSt children order = .ok (ans, stF)) :
    ∃ o0 rest st, order = o0 :: rest ∧
      dfs children (hashIdx order) (order.length + 1) o0 initSt = .ok st ∧
      stF.log = st.log ∧
      stF.height = (fun j => if j = 0 then 1 else st.height j) ∧
      ans = order.map (fun c =>
        { hash := c, children := (children c).getD [],
          height := stF.height ((hashIdx order c).getD 0) }) := by
  cases order with
  | nil =>
    unfold getCommitGraphSt at hok
    cases hok
  | cons o0 rest =>
    unfold getCommitGraphSt at hok
    dsimp only at hok
    split at hok
    · cases hok
    case _ st heq =>
      rw [Except.ok.injEq, Prod.mk.injEq] at hok
      refine ⟨o0, rest, st, rfl, heq, ?_, ?_, ?_⟩
      · rw [← hok.2]
      · rw [← hok.2]
      · rw [← hok.1, ← hok.2]

/-- The initial traversal state satisfies every invariant. -/
theorem initSt_inv (idx : Hash → Option Nat) :
    TailZero idx initSt ∧ LogOK initSt ∧ LogSep initSt.log := by
  refine ⟨?_, ?_, ?_⟩
  · intro x hx
    simp [initSt] at hx
  · intro e he
    simp [initSt] at he
  · exact List.Pairwise.nil

/-- A successful flush ends with an empty run buffer and changes heights
only at rows of buffered ancestors (the run middles) or at the trigger
row itself. -/
theorem flushRun_writes (idx : Hash → Option Nat) (cs : List Hash) (c : Hash) (ic : Nat)
    (st st' : St) (hw : flushRun idx cs c ic st = .ok st') :
    st'.subTree = [] ∧
    ∀ i, st'.height i ≠ st.height i →
      (∃ m, m ∈ st.subTree.tail ∧ idx m = some i) ∨ i = ic := by
  unfold flushRun at hw
  split at hw
  · cases hw
  case _ i0 h0 =>
  dsimp only at hw
  rw [mids_eq_tail] at hw
  split at hw
  · cases hw
  case _ f1 hwa =>
  split at hw
  case _ hcond =>
    cases hw
    refine ⟨rfl, ?_⟩
    intro i hiq
    by_cases hic : i = ic
    · exact Or.inr hic
    · refine Or.inl (writeAll_rows idx _ _ _ _ hwa i ?_)
      intro heq
      apply hiq
      show (if i = ic then rangeMax st.height i0 (ic + 1 - i0) + 1 else f1 i) = st.height i
      rw [if_neg hic]
      exact heq
  case _ hcond =>
    cases hw
    exact ⟨rfl, fun i hiq => Or.inl (writeAll_rows idx _ _ _ _ hwa i hiq)⟩

/-- Child loop of the presence argument.  `T` abstracts the set of
ancestor commits currently on the recursion stack: every buffered commit
lies in `T`, the measure of any `T`-member dominates that of the current
commit, and every assigned row belongs to a `T`-member or to a commit
whose whole reachable set is present.  Under the inductive hypothesis for
one fuel step, running the loop over any child sublist yields
`ReachPresent` for each child and preserves the height condition. -/
theorem runChildren_present (children : Hash → Option (List Hash)) (idx : Hash → Option Nat)
    (meas : Hash → Nat) (fuel : Nat) (c : Hash) (T : Hash → Prop)
    (hTc : T c) (hTm : ∀ s, T s → meas c ≤ meas s)
    (IH : ∀ n st st', dfs children idx fuel n st = .ok st' →
      (∀ x ∈ st.subTree, T x) → (∀ s, T s → meas n < meas s) →
      (∀ x i, idx x = some i → st.height i ≠ 0 → T x ∨ ReachPresent children x) →
      ReachPresent children n ∧ st'.subTree = [] ∧
      (∀ x i, idx x = some i → st'.height i ≠ 0 → T x ∨ ReachPresent children x)) :
    ∀ cs' st st', (∀ n ∈ cs', meas n < meas c) →
      runChildren (dfs children idx fuel) c cs' st = .ok st' →
      (∀ x ∈ st.subTree, T x) →
      (∀ x i, idx x = some i → st.height i ≠ 0 → T x ∨ ReachPresent children x) →
      (∀ n ∈ cs', ReachPresent children n) ∧
      (cs' = [] ∧ st' = st ∨ st'.subTree = []) ∧
      (∀ x i, idx x = some i → st'.height i ≠ 0 → T x ∨ ReachPresent children x) := by
  intro cs'
  induction cs' with
  | nil =>
    intro st st' _ h _ hpre
    rw [runChildren] at h
    cases h
    exact ⟨fun n hn => absurd hn (List.not_mem_nil n), Or.inl ⟨rfl, rfl⟩, hpre⟩
  | cons n ns ihl =>
    intro st st' hlt h hbuf hpre
    rw [runChildren] at h
    split at h
    · cases h
    case _ st2 hstep =>
      have hbuf1 : ∀ x ∈ ({ st with subTree := st.subTree ++ [c] } : St).subTree, T x := by
        intro x hx
        rcases List.mem_append.mp hx with h1 | h1
        · exact hbuf x h1
        · have hxc : x = c := by simpa using h1
          subst hxc
          exact hTc
      have P1 := IH n _ st2 hstep hbuf1
        (fun s hs => Nat.lt_of_lt_of_le (hlt n (List.mem_cons_self n ns)) (hTm s hs))
        hpre
      have hbuf2 : ∀ x ∈ st2.subTree, T x := by
        rw [P1.2.1]
        intro x hx
        cases hx
      rcases ihl st2 st' (fun m hm => hlt m (List.mem_cons_of_mem n hm)) h hbuf2 P1.2.2
        with ⟨hall, hsub, hpost⟩
      refine ⟨?_, ?_, hpost⟩
      · intro m hm
        rcases List.mem_cons.mp hm with rfl | hm1
        · exact P1.1
        · exact hall m hm1
      · rcases hsub with ⟨_, rfl⟩ | hempty
        · exact Or.inr P1.2.1
        · exact Or.inr hempty

/-- Presence argument for one traversal call.  On an acyclic child
relation (witnessed by a measure strictly decreasing along child edges)
with an injective row-index map: if the call returns successfully, every
commit reachable from the visited commit has a present child lookup.  The
abstract stack `T` carries the ancestors (all of strictly larger
measure); a revisited commit is assigned, hence by the height condition
already fully verified, while a first visit recurses into all children.
-/
theorem dfs_present (children : Hash → Option (List Hash)) (idx : Hash → Option Nat)
    (meas : Hash → Nat)
    (hdag : ∀ p csp, children p = some csp → ∀ n ∈ csp, meas n < meas p)
    (hinj : ∀ x y i, idx x = some i → idx y = some i → x = y) :
    ∀ (fuel : Nat) (T : Hash → Prop) (c : Hash) (st st' : St),
      dfs children idx fuel c st = .ok st' →
      (∀ x ∈ st.subTree, T x) →
      (∀ s, T s → meas c < meas s) →
      (∀ x i, idx x = some i → st.height i ≠ 0 → T x ∨ ReachPresent children x) →
      ReachPresent children c ∧ st'.subTree = [] ∧
      (∀ x i, idx x = some i → st'.height i ≠ 0 → T x ∨ ReachPresent children x) := by
  intro fuel
  induction fuel with
  | zero =>
    intro T c st st' h
    rw [dfs] at h
    cases h
  | succ fuel ih =>
    intro T c st st' h hbuf hTm hpre
    rw [dfs] at h
    split at h
    · cases h
    case _ cs hc =>
      split at h
      · cases h
      case _ ic hi =>
        split at h
        case _ hcond =>
          have hRP : ReachPresent children c := by
            rcases hcond with hnil | hne
            · subst hnil
              exact reachPresent_nil hc
            · rcases hpre c ic hi hne with hT | hrp
              · exact absurd (hTm c hT) (lt_irrefl _)
              · exact hrp
          rcases flushRun_writes idx cs c ic st st' h with ⟨hsub, hwr⟩
          refine ⟨hRP, hsub, ?_⟩
          intro x i hix hnz
          by_cases hch : st'.height i = st.height i
          · exact hpre x i hix (hch ▸ hnz)
          · rcases hwr i hch with ⟨m, hm, hmix⟩ | rfl
            · have hxm : x = m := hinj x m i hix hmix
              subst hxm
              exact Or.inl (hbuf x (List.mem_of_mem_tail hm))
            · have hxc : x = c := hinj x c i hix hi
              subst hxc
              exact Or.inr hRP
        case _ hcond =>
          have hcsne : cs ≠ [] := fun hnil => hcond (Or.inl hnil)
          have hrc := runChildren_present children idx meas fuel c (fun y => T y ∨ y = c)
            (Or.inr rfl)
            (fun s hs => by
              rcases hs with hs | rfl
              · exact Nat.le_of_lt (hTm s hs)
              · exact Nat.le_refl _)
            (fun n stn stn' hdn hbufn hmn hpren =>
              ih (fun y => T y ∨ y = c) n stn stn' hdn hbufn hmn hpren)
            cs st st' (hdag c cs hc) h
            (fun x hx => Or.inl (hbuf x hx))
            (fun x i hix hnz => by
              rcases hpre x i hix hnz with hT | hrp
              · exact Or.inl (Or.inl hT)
              · exact Or.inr hrp)
          rcases hrc with ⟨hall, hsub, hpost⟩
          have hRP : ReachPresent children c := reachPresent_step hc hall
          refine ⟨hRP, ?_, ?_⟩
          · rcases hsub with ⟨hnil, _⟩ | hempty
            · exact absurd hnil hcsne
            · exact hempty
          · intro x i hix hnz
            rcases hpost x i hix hnz with hTx | hrp
            · rcases hTx with hTx | rfl
              · exact Or.inl hTx
              · exact Or.inr hRP
            · exact Or.inr hrp

/-! ## Claim theorems for the lane layout engine -/

/-- C2: for every commit set accepted by the layout engine (with distinct
hashes), the produced layout assigns height 1 to the chronologically
earliest commit, the commit at row index 0 (extension.ts line 110 forces
`height[0] = 1` after the traversal). -/
theorem c2_root_lane_one (children : Hash → Option (List Hash)) (order : List Hash)
    (ans : List AnsEntry)
    (hnd : order.Nodup)
    (hok : getCommitGraph children order = .ok ans) :
    ans.headI.hash = order.headI ∧ ans.headI.height = 1 := by
  unfold getCommitGraph at hok
  cases hpair : getCommitGraphSt children order with
  | error e =>
    rw [hpair] at hok
    simp [Except.map] at hok
  | ok pr =>
    obtain ⟨ans0, stF⟩ := pr
    rw [hpair] at hok
    simp only [Except.map, Except.ok.injEq] at hok
    subst hok
    rcases getCommitGraphSt_ok hpair with ⟨o0, rest, st, horder, hdfs, hlog, hheight, hans⟩
    subst horder
    have hnin : o0 ∉ rest := (List.nodup_cons.mp hnd).1
    have hidx : hashIdx (o0 :: rest) o0 = some 0 := hashIdx_head o0 rest hnin
    rw [hans]
    refine ⟨by simp [List.headI], ?_⟩
    simp only [List.map_cons, List.headI]
    show stF.height ((hashIdx (o0 :: rest) o0).getD 0) = 1
    rw [hidx]
    rw [hheight]
    simp

/-- C2 witness: on the linear two-commit history `0 -> 1` the first
answer entry is commit `0` with height 1. -/
theorem c2_witness : ansW2.headI.hash = ([0, 1] : List Hash).headI ∧ ansW2.headI.height = 1 :=
  c2_root_lane_one chW2 [0, 1] ansW2 (by decide) rfl

/-- C4: a height already assigned when a traversal call starts is never
overwritten by the rest of that traversal (a merge commit keeps the
height of its first flush; a later run reaching it only flushes its own
run).  The hypotheses state the run-buffer and ghost-log invariants,
which hold at every reachable state of the engine. -/
theorem c4_first_height_kept (children : Hash → Option (List Hash)) (idx : Hash → Option Nat)
    (fuel : Nat) (c : Hash) (st st' : St) (i : Nat)
    (hrun : dfs children idx fuel c st = .ok st')
    (hTZ : TailZero idx st) (hK : LogOK st) (hJ : LogSep st.log)
    (hi : st.height i ≠ 0) :
    st'.height i = st.height i :=
  (dfs_main children idx fuel c st st' hrun hTZ hK hJ).2.1 i hi

/-- C4 witness: in the diamond `0 -> 1 -> 3`, `0 -> 2 -> 3`, after the
merge commit `3` has been assigned height 1, traversing the second branch
from commit `2` (which reaches `3` again and flushes) leaves the height
of `3` unchanged. -/
theorem c4_witness : stD0.height 3 ≠ 0 ∧ stD1.height 3 = stD0.height 3 := by
  refine ⟨by decide, ?_⟩
  refine c4_first_height_kept chD idxD 5 2 stD0 stD1 3 rfl ?_ ?_ ?_ (by decide)
  · intro x hx
    simp [stD0] at hx
  · intro e he
    simp [stD0] at he
  · exact List.Pairwise.nil

/-- C1 counterexample: on the history `0 -> {3, 1}`, `3 -> 4`, `1 -> 2`
(two sibling branches whose row ranges interleave), the two flushed runs
have row ranges `[0, 4]` and `[0, 2]`, which strictly overlap, yet commit
`3` (written by the first run) and commit `1` (written by the second run)
both receive height 1: two commits on different runs with strictly
overlapping ranges share a lane, refuting the claim. -/
theorem c1_counterexample :
    ¬ (∀ (i j : Nat) (e1 e2 : Flush), i < j →
        stC1.log[i]? = some e1 → stC1.log[j]? = some e2 →
        e1.lo < e2.hi → e2.lo < e1.hi →
        ∀ p ∈ e1.rows, ∀ q ∈ e2.rows, stC1.height p ≠ stC1.height q) := by
  intro hcl
  exact hcl 0 1 { lo := 0, hi := 4, h := 1, rows := [3, 4] }
    { lo := 0, hi := 2, h := 1, rows := [1, 2] }
    (by decide) rfl rfl (by decide) (by decide)
    3 (by decide) 1 (by decide) (by decide)

/-- C1 amended: two commits assigned in different runs are guaranteed
distinct heights only when the earlier flush wrote a row that lies inside
the later flush's scan range; in that case the later height is strictly
larger.  (The counterexample shows the guarantee does not extend to every
pair of runs with strictly overlapping ranges.) -/
theorem c1_amended (children : Hash → Option (List Hash)) (order : List Hash)
    (ans : List AnsEntry) (stF : St) (i j : Nat) (e1 e2 : Flush) (p : Nat)
    (hok : getCommitGraphSt children order = .ok (ans, stF))
    (hij : i < j) (h1 : stF.log[i]? = some e1) (h2 : stF.log[j]? = some e2)
    (hp : p ∈ e1.rows) (hlo : e2.lo ≤ p) (hhi : p ≤ e2.hi) :
    e1.h < e2.h := by
  rcases getCommitGraphSt_ok hok with ⟨o0, rest, st, horder, hdfs, hlog, _, _⟩
  have hinv := initSt_inv (hashIdx order)
  have hpost := dfs_main children (hashIdx order) (order.length + 1) o0 initSt st hdfs
    hinv.1 hinv.2.1 hinv.2.2
  have hsep : LogSep st.log := hpost.2.2.2.2.1
  rcases List.getElem?_eq_some_iff.mp (hlog ▸ h1) with ⟨hilt, he1⟩
  rcases List.getElem?_eq_some_iff.mp (hlog ▸ h2) with ⟨hjlt, he2⟩
  have := (List.pairwise_iff_getElem.mp hsep) i j hilt hjlt hij
  rw [he1, he2] at this
  exact this p hp hlo hhi

/-- C1 witness: on the synthetic fork-then-merge history with three
branches (`0` forks to `1`, `2`, `3`, all merging into `4`), the second
flush writes row 2 with height 2, strictly above the height 1 that the
first flush wrote at row 1 inside the second flush's range. -/
theorem c1_witness :
    pairW1.2.log[0]? = some { lo := 0, hi := 4, h := 1, rows := [1, 4] } ∧
    pairW1.2.log[1]? = some { lo := 0, hi := 4, h := 2, rows := [2] } ∧
    (1 : Nat) < 2 := by
  refine ⟨rfl, rfl, ?_⟩
  exact c1_amended chW1 orderW1 pairW1.1 pairW1.2 0 1
    { lo := 0, hi := 4, h := 1, rows := [1, 4] }
    { lo := 0, hi := 4, h := 2, rows := [2] }
    1 rfl (by decide) rfl rfl (by decide) (by decide) (by decide)

/-- C3 counterexample: on the history consisting of two isolated commits
`0` (oldest) and `1`, the layout engine gives commit `1` height 0, not a
height of at least 1: the traversal starts at commit `0` and never
reaches commit `1`. -/
theorem c3_counterexample :
    ¬ (∀ e ∈ ansC3, 1 ≤ e.height) := by
  intro hcl
  have := hcl { hash := 1, children := [], height := 0 } (by decide)
  exact absurd this (by decide)

/-- C3 amended: every height the engine assigns through a flush is at
least 1, but a commit the traversal never reaches keeps height 0; in
particular an isolated commit (no children, no parents) that is not the
chronologically oldest commit receives height 0, not 1. -/
theorem c3_amended (cl : List (Hash × List Hash)) (order : List Hash)
    (ans : List AnsEntry) (stF : St) (Z : Hash) (iZ : Nat)
    (hok : getCommitGraphSt (chOf cl) order = .ok (ans, stF))
    (hZ : hashIdx order Z = some iZ)
    (hZhead : Z ≠ order.headI)
    (hnopar : ∀ pr ∈ cl, Z ∉ pr.2) :
    (∀ e ∈ stF.log, 1 ≤ e.h) ∧ (∀ e ∈ ans, e.hash = Z → e.height = 0) := by
  rcases getCommitGraphSt_ok hok with ⟨o0, rest, st, horder, hdfs, hlog, hheight, hans⟩
  subst horder
  have hinv := initSt_inv (hashIdx (o0 :: rest))
  have hpost := dfs_main (chOf cl) (hashIdx (o0 :: rest)) ((o0 :: rest).length + 1) o0 initSt st
    hdfs hinv.1 hinv.2.1 hinv.2.2
  have hnp : ∀ y cs, chOf cl y = some cs → Z ∉ cs :=
    fun y cs hy => hnopar (y, cs) (chOf_mem hy)
  have hZo0 : Z ≠ o0 := by simpa [List.headI] using hZhead
  have hZ0 : iZ ≠ 0 := by
    intro h0
    subst h0
    rcases hashIdx_get hZ with ⟨hlt, hget⟩
    have ho0Z : o0 = Z := by simpa using hget
    exact hZo0 ho0Z.symm
  have hzero : st.height iZ = 0 := by
    by_contra hne
    have hne' : st.height iZ ≠ initSt.height iZ := by
      simpa [initSt] using hne
    rcases hpost.2.2.2.2.2 iZ hne' with ⟨x, hxidx, hmem | hre⟩
    · simp [initSt] at hmem
    · have hx : x = Z := hashIdx_inj hxidx hZ
      subst hx
      have : x = o0 := reach_no_parent hnp hre
      exact hZo0 this
  constructor
  · intro e he
    rw [hlog] at he
    have := (hpost.2.2.2.1 e he).1
    omega
  · intro e he hhash
    rw [hans] at he
    rcases List.mem_map.mp he with ⟨c, hc, hce⟩
    have hcz : c = Z := by
      rw [← hce] at hhash
      exact hhash
    subst hcz
    rw [← hce]
    simp only
    rw [hZ]
    simp only [Option.getD_some]
    rw [hheight]
    simp [hZ0, hzero]

/-- C3 witness: on the two isolated commits `0` and `1`, every flushed
height is at least 1 and the answer entry of the isolated non-oldest
commit `1` has height 0. -/
theorem c3_witness :
    (∀ e ∈ pairC3.2.log, 1 ≤ e.h) ∧ (∀ e ∈ pairC3.1, e.hash = 1 → e.height = 0) :=
  c3_amended clC3 [0, 1] pairC3.1 pairC3.2 1 1 rfl rfl (by decide) (by decide)

/-- C9 counterexample: on the input where commit `1` is a child of commit
`0` but absent from the child mapping, the layout computation fails (in
the source, `commits[commit_hash].length` throws a `TypeError`); it does
not treat the commit as childless and produce a layout. -/
theorem c9_counterexample :
    ¬ ∃ ans, getCommitGraph (chOf [(0, [1])]) [0, 1] = .ok ans := by
  rintro ⟨ans, h⟩
  rw [show getCommitGraph (chOf [(0, [1])]) [0, 1] = .error .missing from rfl] at h
  exact Except.noConfusion h

/-- C9 amended: the layout engine requires every commit its traversal
reaches to be present in the child mapping.  On any acyclic history
(measure strictly decreasing along child edges, the standard acyclicity
witness), whenever a commit reachable along child edges from the starting
(chronologically oldest) commit is absent from the mapping, the layout
computation fails — it never produces a layout by treating the absent
commit as childless (in the source, `commits[commit_hash].length` throws
a `TypeError` on `undefined`). -/
theorem c9_amended (cl : List (Hash × List Hash)) (order : List Hash)
    (meas : Hash → Nat)
    (hacyc : ∀ pr ∈ cl, ∀ n ∈ pr.2, meas n < meas pr.1)
    (z : Hash) (hz : chOf cl z = none)
    (hreach : Reach (chOf cl) order.headI z) :
    ∀ ans, getCommitGraph (chOf cl) order ≠ .ok ans := by
  intro ans hok
  unfold getCommitGraph at hok
  cases hpair : getCommitGraphSt (chOf cl) order with
  | error e =>
    rw [hpair] at hok
    exact Except.noConfusion hok
  | ok pr =>
    obtain ⟨ans0, stF⟩ := pr
    rcases getCommitGraphSt_ok hpair with ⟨o0, rest, st, horder, hdfs, _, _, _⟩
    have hdag : ∀ p csp, chOf cl p = some csp → ∀ n ∈ csp, meas n < meas p :=
      fun p csp hp n hn => hacyc (p, csp) (chOf_mem hp) n hn
    have hpres := dfs_present (chOf cl) (hashIdx order) meas hdag
      (fun x y i hx hy => hashIdx_inj hx hy)
      (order.length + 1) (fun _ => False) o0 initSt st hdfs
      (fun x hx => by simp [initSt] at hx)
      (fun s hs => hs.elim)
      (fun x i _ hnz => absurd rfl hnz)
    rw [horder] at hreach
    exact (hpres.1 z hreach) hz

/-- C9 witness: on the chain history `0 -> 1 -> 2` with order `[0, 1, 2]`
and commit `2` missing from the child mapping, the measure `2 - h`
witnesses acyclicity, commit `2` is reached from the start, and the
layout computation fails. -/
theorem c9_witness :
    chOf clC9 2 = none ∧
    (∀ pr ∈ clC9, ∀ n ∈ pr.2, 2 - n < 2 - pr.1) ∧
    getCommitGraph (chOf clC9) [0, 1, 2] ≠ .ok [] := by
  refine ⟨rfl, by decide, ?_⟩
  have h1 : Reach (chOf clC9) 0 1 :=
    Reach.step (Reach.refl 0) (rfl : chOf clC9 0 = some [1]) (by decide)
  have h2 : Reach (chOf clC9) 0 2 :=
    Reach.step h1 (rfl : chOf clC9 1 = some [2]) (by decide)
  exact c9_amended clC9 [0, 1, 2] (fun h => 2 - h) (by decide) 2 rfl h2 []

/-- C10: on a child relation admitting a strictly decreasing measure
along child edges (the standard witness that the finite relation is
acyclic), with the bound that the measure of the oldest commit does not
exceed the number of commits, the run-flush traversal started at the
chronologically oldest commit terminates: the engine never reports
fuel exhaustion (the fuel models the recursion depth of the unbounded
JavaScript recursion). -/
theorem c10_layout_terminates (cl : List (Hash × List Hash)) (order : List Hash)
    (meas : Hash → Nat)
    (hacyc : ∀ pr ∈ cl, ∀ n ∈ pr.2, meas n < meas pr.1)
    (hbound : meas order.headI ≤ order.length) :
    getCommitGraphSt (chOf cl) order ≠ .error .noFuel := by
  cases order with
  | nil =>
    intro hcon
    unfold getCommitGraphSt at hcon
    exact Err.noConfusion (Except.error.inj hcon)
  | cons o0 rest =>
    intro hcon
    unfold getCommitGraphSt at hcon
    dsimp only at hcon
    split at hcon
    case _ e heq =>
      have he : e = Err.noFuel := Except.error.inj hcon
      subst he
      refine dfs_not_noFuel (chOf cl) (hashIdx (o0 :: rest)) meas ?_
        ((o0 :: rest).length + 1) o0 initSt ?_ heq
      · intro p cs hp n hn
        exact hacyc (p, cs) (chOf_mem hp) n hn
      · have hb : meas o0 ≤ rest.length + 1 := by simpa using hbound
        simp only [List.length_cons]
        omega
    case _ st heq => exact Except.noConfusion hcon

/-- C10 witness: the diamond history with measure `4 - hash` satisfies
the acyclicity and bound hypotheses, and its layout terminates. -/
theorem c10_witness :
    (∀ pr ∈ [(0, [1, 2]), (1, [3]), (2, [3]), (3, ([] : List Hash))],
      ∀ n ∈ pr.2, 4 - n < 4 - pr.1) ∧
    getCommitGraphSt (chOf [(0, [1, 2]), (1, [3]), (2, [3]), (3, [])]) [0, 1, 2, 3] ≠
      .error .noFuel :=
  ⟨by decide,
   c10_layout_terminates [(0, [1, 2]), (1, [3]), (2, [3]), (3, [])] [0, 1, 2, 3]
     (fun h => 4 - h) (by decide) (by decide)⟩

/-! ## Lemmas about the incremental checkout patch -/

theorem mem_classAdd {t t' : Tag} {cs : List Tag} :
    t ∈ classAdd t' cs ↔ t ∈ cs ∨ t = t' := by
  unfold classAdd
  split_ifs with h
  · constructor
    · exact Or.inl
    · rintro (h1 | rfl)
      · exact h1
      · exact h
  · simp [List.mem_append]

theorem patchOld_ya (oldX : Int) (maxH : Nat) (e : Elem) :
    (patchOld oldX maxH e).ya = e.ya := by
  unfold patchOld
  dsimp only
  split_ifs <;> rfl

theorem patchNew_ya (newHash : Hash) (maxH : Nat) (e : Elem) :
    (patchNew newHash maxH e).ya = e.ya := by
  unfold patchNew
  dsimp only
  split_ifs <;> rfl

theorem patchOld_xa_of_circle (oldX : Int) (maxH : Nat) (e : Elem)
    (hc : Tag.circle ∈ e.classes) : (patchOld oldX maxH e).xa = e.xa := by
  unfold patchOld
  dsimp only
  split_ifs <;> simp_all

theorem patchNew_xa_of_circle (newHash : Hash) (maxH : Nat) (e : Elem)
    (hc : Tag.circle ∈ e.classes) : (patchNew newHash maxH e).xa = e.xa := by
  unfold patchNew
  dsimp only
  split_ifs <;> simp_all

theorem patchOld_mem (oldX : Int) (maxH : Nat) (e : Elem) (t : Tag)
    (h1 : t ≠ Tag.headElem) (h2 : t ≠ Tag.usualElem) :
    t ∈ (patchOld oldX maxH e).classes ↔ t ∈ e.classes := by
  unfold patchOld
  dsimp only
  split_ifs <;>
    simp [mem_classAdd, classRemove, List.mem_erase_of_ne h1, h2]

theorem patchOld_id (oldX : Int) (maxH : Nat) (e : Elem)
    (h : Tag.headElem ∉ e.classes) : patchOld oldX maxH e = e := by
  unfold patchOld
  dsimp only
  rw [if_neg h]

theorem patchNew_id (newHash : Hash) (maxH : Nat) (e : Elem)
    (h : Tag.hashTag newHash ∉ e.classes) : patchNew newHash maxH e = e := by
  unfold patchNew
  dsimp only
  rw [if_neg h]

theorem forall2_map_self {α : Type} (R : α → α → Prop) (k : α → α) :
    ∀ l : List α, (∀ a ∈ l, R a (k a)) → List.Forall₂ R l (l.map k)
  | [], _ => List.Forall₂.nil
  | a :: l, h =>
    List.Forall₂.cons (h a (List.mem_cons_self a l))
      (forall2_map_self R k l (fun b hb => h b (List.mem_cons_of_mem a hb)))

/-- Heights of head-decorated circles after patching the four elements
of one commit: exactly the commit equal to the new HEAD keeps a decorated
circle. -/
theorem renderCommit_count (A B hs : Hash) (maxH : Nat) (oldX : Int)
    (p : Int × Int) (msg : String) :
    (((renderCommit A maxH hs p msg).map (patchOld oldX maxH)).map
      (patchNew B maxH)).countP isHeadCircle = if hs = B then 1 else 0 := by
  by_cases hB : hs = B
  · subst hB
    by_cases hA : hs = A
    · subst hA
      simp [renderCommit, patchOld, patchNew, classAdd, classRemove, isHeadCircle,
        List.countP_cons]
    · simp [renderCommit, patchOld, patchNew, classAdd, classRemove, isHeadCircle,
        hA, Ne.symm hA, List.countP_cons]
  · by_cases hA : hs = A
    · subst hA
      simp [renderCommit, patchOld, patchNew, classAdd, classRemove, isHeadCircle,
        hB, Ne.symm hB, List.countP_cons]
    · simp [renderCommit, patchOld, patchNew, classAdd, classRemove, isHeadCircle,
        hA, Ne.symm hA, hB, Ne.symm hB, List.countP_cons]

/-- Any decorated circle among the patched elements of one commit is
tagged with the new HEAD hash. -/
theorem renderCommit_tag (A B hs : Hash) (maxH : Nat) (oldX : Int)
    (p : Int × Int) (msg : String) :
    ∀ e ∈ ((renderCommit A maxH hs p msg).map (patchOld oldX maxH)).map (patchNew B maxH),
      isHeadCircle e = true → Tag.hashTag B ∈ e.classes := by
  by_cases hB : hs = B
  · subst hB
    by_cases hA : hs = A
    · subst hA
      simp [renderCommit, patchOld, patchNew, classAdd, classRemove, isHeadCircle]
    · simp [renderCommit, patchOld, patchNew, classAdd, classRemove, isHeadCircle,
        hA, Ne.symm hA]
  · by_cases hA : hs = A
    · subst hA
      simp [renderCommit, patchOld, patchNew, classAdd, classRemove, isHeadCircle,
        hB, Ne.symm hB]
    · simp [renderCommit, patchOld, patchNew, classAdd, classRemove, isHeadCircle,
        hA, Ne.symm hA, hB, Ne.symm hB]

theorem renderScene_count_zero (A B : Hash) (maxH : Nat) (oldX : Int) :
    ∀ items : List (Hash × (Int × Int) × String),
      B ∉ items.map (fun it => it.1) →
      (((renderScene A maxH items).map (patchOld oldX maxH)).map
        (patchNew B maxH)).countP isHeadCircle = 0 := by
  intro items
  induction items with
  | nil => intro _; rfl
  | cons it rest ih =>
    intro hB
    have h1 : it.1 ≠ B := by
      intro h
      exact hB (by simp [h])
    have h2 : B ∉ rest.map (fun it => it.1) := by
      intro h
      exact hB (by simp [h])
    simp only [renderScene, List.flatMap_cons, List.map_append, List.countP_append]
    rw [renderCommit_count]
    have := ih h2
    simp only [renderScene] at this
    rw [this]
    simp [h1]

theorem renderScene_count_one (A B : Hash) (maxH : Nat) (oldX : Int) :
    ∀ items : List (Hash × (Int × Int) × String),
      (items.map (fun it => it.1)).Nodup →
      B ∈ items.map (fun it => it.1) →
      (((renderScene A maxH items).map (patchOld oldX maxH)).map
        (patchNew B maxH)).countP isHeadCircle = 1 := by
  intro items
  induction items with
  | nil => intro _ hB; simp at hB
  | cons it rest ih =>
    intro hnd hB
    have hnd' : (rest.map (fun it => it.1)).Nodup ∧ it.1 ∉ rest.map (fun it => it.1) := by
      rw [List.map_cons, List.nodup_cons] at hnd
      exact ⟨hnd.2, hnd.1⟩
    simp only [renderScene, List.flatMap_cons, List.map_append, List.countP_append]
    rw [renderCommit_count]
    by_cases h1 : it.1 = B
    · have hz := renderScene_count_zero A B maxH oldX rest (h1 ▸ hnd'.2)
      simp only [renderScene] at hz
      rw [hz]
      simp [h1]
    · have hBrest : B ∈ rest.map (fun it => it.1) := by
        rw [List.map_cons] at hB
        rcases List.mem_cons.mp hB with h | h
        · exact absurd h.symm h1
        · exact h
      have := ih hnd'.1 hBrest
      simp only [renderScene] at this
      rw [this]
      simp [h1]

theorem renderScene_tag (A B : Hash) (maxH : Nat) (oldX : Int) :
    ∀ items : List (Hash × (Int × Int) × String),
      ∀ e ∈ ((renderScene A maxH items).map (patchOld oldX maxH)).map (patchNew B maxH),
        isHeadCircle e = true → Tag.hashTag B ∈ e.classes := by
  intro items
  induction items with
  | nil => intro e he; simp [renderScene] at he
  | cons it rest ih =>
    intro e he hhc
    simp only [renderScene, List.flatMap_cons, List.map_append] at he
    rcases List.mem_append.mp he with h | h
    · exact renderCommit_tag A B it.1 maxH oldX it.2.1 it.2.2 e h hhc
    · refine ih e ?_ hhc
      simpa [renderScene] using h

/-! ## Claim theorems for the checkout synchronization protocol -/

/-- C5 counterexample: starting from the rendered two-commit panel with a
checkout of commit `1` already posted and unanswered (outstanding), a
double-click on commit `0` posts a second checkout request: two requests
are outstanding at once, so the webview has no pending-checkout guard. -/
theorem c5_counterexample :
    ¬ ((wvRun wvW [WVEvent.dblclick 1, WVEvent.dblclick 0]).outbound.length ≤ 1) := by
  intro hle
  rw [show (wvRun wvW [WVEvent.dblclick 1, WVEvent.dblclick 0]).outbound = [1, 0] from rfl]
    at hle
  simp at hle

/-- C5 amended: a double-click always posts exactly one checkout request
immediately, regardless of any outstanding checkout: after any event
trace, the posted requests are the initial ones followed by every
double-clicked hash in order.  The handler of extension.ts lines 380-383
and 413-415 posts unconditionally; no `CheckoutPending` guard exists. -/
theorem c5_amended (wv : WVState) (evs : List WVEvent) :
    (wvRun wv evs).outbound = wv.outbound ++ evs.filterMap dblOf := by
  induction evs generalizing wv with
  | nil => simp [wvRun]
  | cons e es ih =>
    cases e with
    | dblclick h =>
      rw [wvRun, ih]
      simp [wvStep, dblOf, List.filterMap_cons]
    | hostCheckout h =>
      rw [wvRun, ih]
      simp [wvStep, applyCheckoutMsg, dblOf, List.filterMap_cons]

/-- C6: checkout round-trip.  From a scene rendered with HEAD `A` (with
distinct commit hashes containing `B`): if the host checkout of `B`
succeeds, the repository HEAD and the in-memory HEAD pointer both become
`B` and exactly one circle carries the HEAD decoration, namely the one
tagged `B`; if the checkout fails, the repository HEAD stays `A`, the
failure is surfaced as an error message, and the webview (scene, pointer,
layout) is exactly unchanged. -/
theorem c6_checkout_roundtrip (items : List (Hash × (Int × Int) × String))
    (A B : Hash) (maxH : Nat) (pos : Hash → Option (Int × Int)) (ok : Hash → Bool)
    (wv0 : WVState) (host0 : HostState) (r : HostState × WVState)
    (hnd : (items.map (fun it => it.1)).Nodup)
    (hB : B ∈ items.map (fun it => it.1))
    (hwv : wv0 = { scene := renderScene A maxH items, headPtr := A, pos := pos,
                   maxH := maxH, outbound := [] })
    (hhost : host0 = { repoHead := A, errors := [] })
    (hr : r = hostHandle ok host0 wv0 B) :
    (ok B = true → r.1.repoHead = B ∧ r.2.headPtr = B ∧
      r.2.scene.countP isHeadCircle = 1 ∧
      ∀ e ∈ r.2.scene, isHeadCircle e = true → Tag.hashTag B ∈ e.classes) ∧
    (ok B = false → r.1.repoHead = A ∧ r.1.errors = ["checkout failed"] ∧ r.2 = wv0) := by
  subst hwv hhost hr
  constructor
  · intro hok
    unfold hostHandle
    rw [if_pos hok]
    refine ⟨rfl, rfl, ?_, ?_⟩
    · exact renderScene_count_one A B maxH _ items hnd hB
    · exact renderScene_tag A B maxH _ items
  · intro hok
    have hne : ¬ (ok B = true) := by simp [hok]
    unfold hostHandle
    rw [if_neg hne]
    exact ⟨rfl, rfl, rfl⟩

/-- C6 witness: on the rendered two-commit panel with HEAD at commit `0`,
a successful checkout of commit `1` moves both HEAD pointers to `1` and
leaves exactly one decorated circle, the one tagged `1`. -/
theorem c6_witness :
    okW 1 = true ∧ rW.1.repoHead = 1 ∧ rW.2.headPtr = 1 ∧
    rW.2.scene.countP isHeadCircle = 1 ∧
    (∀ e ∈ rW.2.scene, isHeadCircle e = true → Tag.hashTag 1 ∈ e.classes) := by
  have h := (c6_checkout_roundtrip itemsW 0 1 1 (positionsFun ansW2) okW wvW hostW rW
    (by decide) (by decide) rfl rfl rfl).1 rfl
  exact ⟨rfl, h.1, h.2.1, h.2.2.1, h.2.2.2⟩

/-- C7: the incremental patch applied on a successful checkout is
position-preserving and touches only decorated or newly tagged elements:
the positions dictionary and graph width are not recomputed, every
element keeps its `y` coordinate, every circle keeps both coordinates
(only its fill and class tags change), and an element carrying neither
the HEAD decoration nor the new HEAD hash tag is entirely unchanged. -/
theorem c7_patch_is_incremental (wv : WVState) (h : Hash) :
    (applyCheckoutMsg wv h).pos = wv.pos ∧
    (applyCheckoutMsg wv h).maxH = wv.maxH ∧
    List.Forall₂ (fun e e' : Elem =>
      e'.ya = e.ya ∧
      (Tag.circle ∈ e.classes → e'.xa = e.xa) ∧
      ((Tag.headElem ∉ e.classes ∧ Tag.hashTag h ∉ e.classes) → e' = e))
      wv.scene (applyCheckoutMsg wv h).scene := by
  refine ⟨rfl, rfl, ?_⟩
  show List.Forall₂ _ wv.scene
    ((wv.scene.map (patchOld (((wv.pos wv.headPtr).getD (0, 0)).1) wv.maxH)).map
      (patchNew h wv.maxH))
  rw [List.map_map]
  refine forall2_map_self _ _ _ ?_
  intro e _
  refine ⟨?_, ?_, ?_⟩
  · show (patchNew h wv.maxH (patchOld _ wv.maxH e)).ya = e.ya
    rw [patchNew_ya, patchOld_ya]
  · intro hc
    show (patchNew h wv.maxH (patchOld _ wv.maxH e)).xa = e.xa
    have hc' : Tag.circle ∈ (patchOld (((wv.pos wv.headPtr).getD (0, 0)).1) wv.maxH e).classes :=
      (patchOld_mem _ _ e Tag.circle (by simp) (by simp)).mpr hc
    rw [patchNew_xa_of_circle _ _ _ hc', patchOld_xa_of_circle _ _ _ hc]
  · rintro ⟨h1, h2⟩
    show patchNew h wv.maxH (patchOld _ wv.maxH e) = e
    rw [patchOld_id _ _ _ h1, patchNew_id _ _ _ h2]

/-! ## Claim theorems for the renderer positions -/

theorem buildPos_eq_none {hs : Hash} :
    ∀ (l : List AnsEntry) (i0 : Nat), (∀ e ∈ l, e.hash ≠ hs) → buildPos l i0 hs = none := by
  intro l
  induction l with
  | nil => intro i0 _; rfl
  | cons e restL ih =>
    intro i0 hne
    simp only [buildPos]
    rw [ih (i0 + 1) (fun e' he' => hne e' (List.mem_cons_of_mem e he'))]
    have : hs ≠ e.hash := fun h => hne e (List.mem_cons_self e restL) h.symm
    simp [this]

theorem buildPos_getElem :
    ∀ (l : List AnsEntry), (l.map AnsEntry.hash).Nodup →
    ∀ (i0 j : Nat) (hj : j < l.length),
      buildPos l i0 (l[j].hash) =
        some (baseX + ((l[j].height : Int) - 1) * xOffset,
              baseY + ((i0 + j : Nat) : Int) * yOffset) := by
  intro l
  induction l with
  | nil => intro _ i0 j hj; cases hj
  | cons e restL ih =>
    intro hnd i0 j hj
    rw [List.map_cons] at hnd
    have hnd' := List.nodup_cons.mp hnd
    cases j with
    | zero =>
      have hne : ∀ e' ∈ restL, e'.hash ≠ e.hash := by
        intro e' he' heq
        exact hnd'.1 (heq ▸ List.mem_map_of_mem AnsEntry.hash he')
      simp only [buildPos, List.getElem_cons_zero]
      rw [buildPos_eq_none restL (i0 + 1) hne]
      simp
    | succ j' =>
      have hj' : j' < restL.length := by
        simpa using Nat.lt_of_succ_lt_succ hj
      simp only [buildPos, List.getElem_cons_succ]
      rw [ih hnd'.2 (i0 + 1) j' hj']
      have harith : i0 + 1 + j' = i0 + (j' + 1) := by omega
      rw [harith]

/-- C8 counterexample: for the linear history `0 -> 1` (commit `0` the
chronologically older, at ascending row index 0, with height 1), the
claimed position of commit `0` is
`(baseX + (1-1)*laneWidth, baseY + 0*rowHeight) = (210, 50)`, but the
webview assigns `(210, 150)`: the script reverses the array (newest
first) before assigning `y` by display index. -/
theorem c8_counterexample :
    positionsFun ansW2 0 = some (210, 150) ∧ positionsFun ansW2 0 ≠ some (210, 50) := by
  constructor
  · rfl
  · intro h
    rw [show positionsFun ansW2 0 = some (210, 150) from rfl] at h
    simp at h

/-- C8 amended: in the rendered scene, the commit at ascending
chronological row `r` (with distinct hashes) is positioned at
`x = baseX + (height - 1) * laneWidth` and
`y = baseY + (n - 1 - r) * rowHeight`: the vertical coordinate uses the
commit's index in the reversed (descending, newest-first) order, not the
ascending row index. -/
theorem c8_amended (ans : List AnsEntry) (r : Nat) (hr : r < ans.length)
    (hnd : (ans.map AnsEntry.hash).Nodup) :
    positionsFun ans (ans[r].hash) =
      some (baseX + ((ans[r].height : Int) - 1) * xOffset,
            baseY + ((ans.length - 1 - r : Nat) : Int) * yOffset) := by
  unfold positionsFun
  have hrevnd : (ans.reverse.map AnsEntry.hash).Nodup := by
    rw [List.map_reverse]
    exact List.nodup_reverse.mpr hnd
  have hj : ans.length - 1 - r < ans.reverse.length := by
    simp only [List.length_reverse]
    omega
  have hb := buildPos_getElem ans.reverse hrevnd 0 (ans.length - 1 - r) hj
  have hel : ans.reverse[ans.length - 1 - r] = ans[r] := by
    rw [List.getElem_reverse]
    congr 1
    omega
  rw [hel] at hb
  rw [hb]
  have : (0 + (ans.length - 1 - r) : Nat) = ans.length - 1 - r := by omega
  rw [this]

/-- C8 witness: for the linear history `0 -> 1`, the row-0 commit `0`
(height 1) is positioned at `x = 210 + (1-1)*100 = 210` and
`y = 50 + (2-1-0)*100 = 150`. -/
theorem c8_witness :
    (ansW2.map AnsEntry.hash).Nodup ∧ positionsFun ansW2 0 = some (210, 150) :=
  ⟨by decide, c8_amended ansW2 0 (by decide) (by decide)⟩

end TsarGitGraph
